import Mathlib

/-!
Verification of the ingestion / chunking / indexing pipeline of the
Space-APPS hackathon repository (`ingest_epmc.py`, `rebuild_index.py`).

Texts are modelled as `List Char`; Python dicts (insertion ordered) as
association lists; the embedding model and the vector index as opaque
functions; file writes as an explicit artifact log.
-/

/-- Convert a string literal to the `List Char` text representation. -/
def toL (s : String) : List Char := s.toList

/-- Python `text[a:b]` on a text with `0 ≤ a`: elements at indices `a .. b-1`. -/
def pyslice (t : List Char) (a b : Nat) : List Char := (t.take b).drop a

/-- Python whitespace test used by `str.strip()`. -/
def isPySpace (c : Char) : Bool := c.isWhitespace

/-- Python `s.strip()`: remove whitespace from both ends. -/
def pstrip (s : List Char) : List Char :=
  ((s.dropWhile isPySpace).reverse.dropWhile isPySpace).reverse

/-- Source `ingest_epmc.split_text_to_chunks` emits dicts with keys text, start, end. -/
structure Chunk where
  text : List Char
  start : Nat
  «end» : Nat
deriving DecidableEq, Repr

instance : Inhabited Chunk := ⟨⟨[], 0, 0⟩⟩

/-- Python `text.replace('\r','\n')` — length preserving. -/
def normalizeCR (text : List Char) : List Char :=
  text.map (fun c => if c = '\r' then '\n' else c)

/-- The `while start < length` loop of `split_text_to_chunks`, with explicit
fuel: `none` means the fuel ran out before the loop exited (the loop made
too little forward progress).  `start = end - overlap` is Nat subtraction,
which coincides with the source's `if start < 0: start = 0` clamp. -/
def splitGo (t : List Char) (chunk_size overlap : Nat) :
    Nat → Nat → List Chunk → Option (List Chunk)
  | fuel, start, chunks =>
    if start < t.length then
      match fuel with
      | 0 => none
      | fuel + 1 =>
        let e := start + chunk_size
        let chunks := chunks ++ [⟨pyslice t start e, start, min e t.length⟩]
        let start' := e - overlap
        if start' ≥ t.length then some chunks
        else splitGo t chunk_size overlap fuel start' chunks
    else some chunks

/-- Model of `ingest_epmc.split_text_to_chunks(text, chunk_size, overlap)`:
empty text short-circuits, `'\r'` is replaced by `'\n'`, then the windowing
loop runs.  Fuel `length + 1` is proved sufficient whenever
`overlap < chunk_size` (`splitGo_isSome`); the `getD` default is never
reached in that regime. -/
def split_text_to_chunks (text : List Char) (chunk_size overlap : Nat) : List Chunk :=
  if text = [] then []
  else
    let t := normalizeCR text
    (splitGo t chunk_size overlap (t.length + 1) 0 []).getD []

theorem normalizeCR_length (text : List Char) :
    (normalizeCR text).length = text.length := List.length_map _ _

/-- Fuel `≥ length - start` is enough when the step makes progress. -/
theorem splitGo_isSome (t : List Char) (C O : Nat) (hCO : O < C) :
    ∀ fuel start acc, t.length ≤ start + fuel →
      (splitGo t C O fuel start acc).isSome := by
  intro fuel
  induction fuel with
  | zero =>
    intro start acc h
    rw [splitGo]
    have : ¬ start < t.length := by omega
    simp [this]
  | succ f ih =>
    intro start acc h
    rw [splitGo]
    by_cases hs : start < t.length
    · simp only [hs, if_true]
      by_cases hb : start + C - O ≥ t.length
      · simp [hb]
      · simp only [hb, if_false]
        apply ih
        omega
    · simp [hs]

/-- Specification of the chunk sequence produced from position `s` on:
each chunk records its window, and positions advance by `(s + C) - O`. -/
def chainFrom (t : List Char) (C O : Nat) : Nat → List Chunk → Prop
  | _, [] => True
  | s, c :: rest =>
      s < t.length ∧ c.start = s ∧ c.«end» = min (s + C) t.length ∧
      c.text = pyslice t s (s + C) ∧ chainFrom t C O ((s + C) - O) rest

theorem splitGo_chain (t : List Char) (C O : Nat) :
    ∀ fuel start acc out, splitGo t C O fuel start acc = some out →
      ∃ nw, out = acc ++ nw ∧ chainFrom t C O start nw ∧
        (start < t.length → nw ≠ []) := by
  intro fuel
  induction fuel with
  | zero =>
    intro start acc out h
    rw [splitGo] at h
    by_cases hs : start < t.length
    · simp [hs] at h
    · simp only [hs, if_false, Option.some.injEq] at h
      exact ⟨[], by simp [h.symm, chainFrom], by simp [chainFrom], fun hc => absurd hc hs⟩
  | succ f ih =>
    intro start acc out h
    rw [splitGo] at h
    by_cases hs : start < t.length
    · simp only [hs, if_true] at h
      by_cases hb : start + C - O ≥ t.length
      · simp only [hb, if_true, Option.some.injEq] at h
        refine ⟨[⟨pyslice t start (start + C), start, min (start + C) t.length⟩],
          by simp [h.symm], ?_, by simp⟩
        exact ⟨hs, rfl, rfl, rfl, trivial⟩
      · simp only [hb, if_false] at h
        obtain ⟨nw, hout, hchain, _⟩ := ih _ _ _ h
        refine ⟨⟨pyslice t start (start + C), start, min (start + C) t.length⟩ :: nw,
          by simpa using hout, ?_, by simp⟩
        exact ⟨hs, rfl, rfl, rfl, hchain⟩
    · simp only [hs, if_false, Option.some.injEq] at h
      exact ⟨[], by simp [h.symm], by simp [chainFrom], fun hc => absurd hc hs⟩

/-- Every member of a chain records a window clamped to the text length. -/
theorem chainFrom_mem (t : List Char) (C O : Nat) :
    ∀ s nw, chainFrom t C O s nw → ∀ c ∈ nw,
      c.start < t.length ∧ c.«end» = min (c.start + C) t.length ∧
      c.text = pyslice t c.start (c.start + C) := by
  intro s nw
  induction nw generalizing s with
  | nil => intro _ c hc; cases hc
  | cons a rest ih =>
    intro hch c hc
    obtain ⟨hs, ha1, ha2, ha3, hrest⟩ := hch
    rcases List.mem_cons.mp hc with hc | hc
    · subst hc; exact ⟨ha1 ▸ hs, by rw [ha2, ha1], by rw [ha3, ha1]⟩
    · exact ih _ hrest c hc

theorem chainFrom_get (t : List Char) (C O : Nat) (hCO : O < C) :
    ∀ nw s, chainFrom t C O s nw → ∀ i (h : i < nw.length),
      (nw.get ⟨i, h⟩).start = s + i * (C - O) := by
  intro nw
  induction nw with
  | nil => intro s _ i h; simp at h
  | cons a rest ih =>
    intro s hch i h
    obtain ⟨_, ha1, _, _, hrest⟩ := hch
    cases i with
    | zero => simpa using ha1
    | succ j =>
      have hj := ih ((s + C) - O) hrest j (by simpa using h)
      simp only [List.get_cons_succ] at *
      rw [hj]
      have he : s + C - O = s + (C - O) := by omega
      rw [he]
      ring_nf

theorem pyslice_min_length (t : List Char) (a b : Nat) :
    pyslice t a (min b t.length) = pyslice t a b := by
  unfold pyslice
  rcases le_or_lt b t.length with h | h
  · rw [min_eq_left h]
  · rw [min_eq_right (le_of_lt h), List.take_length, List.take_of_length_le (le_of_lt h)]

theorem split_text_to_chunks_chain (text : List Char) (C O : Nat) (hCO : O < C)
    (hne : text ≠ []) :
    chainFrom (normalizeCR text) C O 0 (split_text_to_chunks text C O) ∧
    split_text_to_chunks text C O ≠ [] := by
  have hlen : 0 < (normalizeCR text).length := by
    rw [normalizeCR_length]; exact List.length_pos.mpr hne
  have hs := splitGo_isSome (normalizeCR text) C O hCO ((normalizeCR text).length + 1) 0 []
    (by omega)
  obtain ⟨out, hout⟩ := Option.isSome_iff_exists.mp hs
  obtain ⟨nw, h1, h2, h3⟩ := splitGo_chain _ C O _ _ _ _ hout
  simp only [List.nil_append] at h1
  subst h1
  rw [split_text_to_chunks, if_neg hne]
  simp only [hout, Option.getD_some]
  exact ⟨h2, h3 hlen⟩

/-- Claim C2 — amended.  For every chunk: `0 ≤ start < end ≤ len(text)`, and the
slice `t[start:end]` of the carriage-return-normalized input (each `'\r'`
replaced by `'\n'`; identical to the original input when it contains no
`'\r'`) equals the chunk's stored text. -/
theorem claim_C2_amended (text : List Char) (C O : Nat) (hCO : O < C) :
    ∀ ch ∈ split_text_to_chunks text C O,
      ch.start < ch.«end» ∧ ch.«end» ≤ text.length ∧
      pyslice (normalizeCR text) ch.start ch.«end» = ch.text := by
  intro ch hch
  have hne : text ≠ [] := by
    intro h; subst h; simp [split_text_to_chunks] at hch
  obtain ⟨hchain, _⟩ := split_text_to_chunks_chain text C O hCO hne
  obtain ⟨h1, h2, h3⟩ := chainFrom_mem _ C O _ _ hchain ch hch
  have hL : (normalizeCR text).length = text.length := normalizeCR_length text
  rw [hL] at h1 h2
  refine ⟨by rw [h2]; omega, by rw [h2]; omega, ?_⟩
  rw [h3, h2, ← hL, pyslice_min_length]

/-- Claim C2 — counterexample to the claim as stated: on the one-character
input `"\r"` the emitted chunk stores text `"\n"`, which is not the slice
`text[0:1] = "\r"` of the original, unmodified input. -/
theorem claim_C2_counterexample :
    (split_text_to_chunks ['\r'] 1200 250 = [⟨['\n'], 0, 1⟩]) ∧
    ¬ pyslice ['\r'] 0 1 = ['\n'] := by decide

theorem claim_C2_witness :
    (Chunk.mk (toL (r"abcde")) 0 5).start < (Chunk.mk (toL (r"abcde")) 0 5).«end» ∧
    (Chunk.mk (toL (r"abcde")) 0 5).«end» ≤ (toL (r"abcdefg")).length ∧
    pyslice (normalizeCR (toL (r"abcdefg"))) (Chunk.mk (toL (r"abcde")) 0 5).start
      (Chunk.mk (toL (r"abcde")) 0 5).«end» = (Chunk.mk (toL (r"abcde")) 0 5).text :=
  claim_C2_amended (toL (r"abcdefg")) 5 2 (by decide) _ (by decide)

/-- Claim C3 — amended.  With `0 ≤ O < C`: the first span starts at 0; each
subsequent span's start is the previous start plus `C - O`; every span's end
is `min(start + C, len)` — so spans other than the final one may also be
clamped short of length `C` once `start + C` exceeds the text length; two
consecutive spans overlap by exactly `O` characters whenever the earlier span
is unclamped (`start + C ≤ len`); empty input yields zero spans. -/
theorem claim_C3_amended (text : List Char) (C O : Nat) (hCO : O < C) :
    (text = [] → split_text_to_chunks text C O = []) ∧
    (text ≠ [] → split_text_to_chunks text C O ≠ []) ∧
    (∀ (h : 0 < (split_text_to_chunks text C O).length),
      ((split_text_to_chunks text C O).get ⟨0, h⟩).start = 0) ∧
    (∀ i (h : i + 1 < (split_text_to_chunks text C O).length),
      ((split_text_to_chunks text C O).get ⟨i + 1, h⟩).start
        = ((split_text_to_chunks text C O).get ⟨i, by omega⟩).start + (C - O)) ∧
    (∀ i (h : i < (split_text_to_chunks text C O).length),
      ((split_text_to_chunks text C O).get ⟨i, h⟩).«end»
        = min (((split_text_to_chunks text C O).get ⟨i, h⟩).start + C) text.length) ∧
    (∀ i (h : i + 1 < (split_text_to_chunks text C O).length),
      ((split_text_to_chunks text C O).get ⟨i, by omega⟩).start + C ≤ text.length →
      ((split_text_to_chunks text C O).get ⟨i, by omega⟩).«end»
        - ((split_text_to_chunks text C O).get ⟨i + 1, h⟩).start = O) := by
  by_cases hne : text = []
  · subst hne
    refine ⟨fun _ => rfl, fun h => absurd rfl h, ?_, ?_, ?_, ?_⟩ <;>
      intro i <;> simp [split_text_to_chunks] at i ⊢
  · obtain ⟨hchain, hnil⟩ := split_text_to_chunks_chain text C O hCO hne
    have hget := chainFrom_get (normalizeCR text) C O hCO _ 0 hchain
    have hL : (normalizeCR text).length = text.length := normalizeCR_length text
    refine ⟨fun h => absurd h hne, fun _ => hnil, ?_, ?_, ?_, ?_⟩
    · intro h; rw [hget 0 h]; omega
    · intro i h
      rw [hget (i + 1) h, hget i (by omega)]
      ring
    · intro i h
      have hm := chainFrom_mem (normalizeCR text) C O _ _ hchain _
        (List.get_mem (split_text_to_chunks text C O) i h)
      rw [hm.2.1, hL]
    · intro i h hfull
      have hm := chainFrom_mem (normalizeCR text) C O _ _ hchain _
        (List.get_mem (split_text_to_chunks text C O) i (by omega))
      rw [hm.2.1, hget (i + 1) h, hget i (by omega), hL]
      rw [hget i (by omega)] at hfull
      have hmul : (i + 1) * (C - O) = i * (C - O) + (C - O) := by ring
      rw [hmul]
      generalize i * (C - O) = k at hfull ⊢
      rw [min_eq_left hfull]
      omega

/-- Claim C3 — counterexample to the claim as stated: on a 10-character text
with `C = 8`, `O = 5`, the second span (not the final one — four spans are
produced) has length 7 ≠ C, and spans 2 and 3 overlap by 4 ≠ O characters,
because once `start + C` passes the text length every later span is clamped. -/
theorem claim_C3_counterexample :
    ((split_text_to_chunks (toL (r"0123456789")) 8 5).length = 4) ∧
    (((split_text_to_chunks (toL (r"0123456789")) 8 5).getD 1 default).text.length ≠ 8) ∧
    (((split_text_to_chunks (toL (r"0123456789")) 8 5).getD 1 default).«end»
      - ((split_text_to_chunks (toL (r"0123456789")) 8 5).getD 2 default).start ≠ 5) := by
  decide

theorem claim_C3_witness :
    ((split_text_to_chunks (toL (r"abcdefg")) 5 2).get ⟨0, by decide⟩).start = 0 :=
  (claim_C3_amended (toL (r"abcdefg")) 5 2 (by decide)).2.2.1 (by decide)

/-- Claim C10 — confirmed.  With `O < C` the loop of `split_text_to_chunks`
terminates within `len + 1` iterations on every input (the fuelled loop
returns a result); and the precondition is necessary: when `O ≥ C` and the
text is longer than one chunk, the start offset never advances, and the loop
never returns for any amount of fuel. -/
theorem claim_C10 :
    (∀ (text : List Char) (C O : Nat), O < C →
      (splitGo (normalizeCR text) C O ((normalizeCR text).length + 1) 0 []).isSome) ∧
    (∀ (text : List Char) (C O : Nat), C ≤ O → C < text.length →
      ∀ fuel acc, splitGo (normalizeCR text) C O fuel 0 acc = none) := by
  constructor
  · intro text C O hCO
    exact splitGo_isSome _ C O hCO _ 0 [] (by omega)
  · intro text C O hOC hlen fuel
    have hpos : 0 < (normalizeCR text).length := by rw [normalizeCR_length]; omega
    induction fuel with
    | zero =>
      intro acc
      rw [splitGo]
      simp [hpos]
    | succ f ih =>
      intro acc
      rw [splitGo]
      have hstep : 0 + C - O = 0 := by omega
      simp only [hpos, if_true, hstep]
      have : ¬ 0 + C - O ≥ (normalizeCR text).length := by omega
      simp only [ge_iff_le, hstep, if_neg (by omega : ¬ (normalizeCR text).length ≤ 0)]
      exact ih _

theorem claim_C10_witness :
    (splitGo (normalizeCR (toL (r"abc"))) 2 1 ((normalizeCR (toL (r"abc"))).length + 1)
      0 []).isSome ∧
    splitGo (normalizeCR (toL (r"abc"))) 1 1 5 0 [] = none :=
  ⟨claim_C10.1 (toL (r"abc")) 2 1 (by decide),
   claim_C10.2 (toL (r"abc")) 1 1 (by decide) (by decide) 5 []⟩

/-- Configuration constants of `ingest_epmc.py`. -/
def CHUNK_SIZE_CHARS : Nat := 1200

def CHUNK_OVERLAP : Nat := 250

def BATCH_SIZE_EMB : Nat := 64

/-- Python `pref in k.lower()` — substring containment in the lowercased key. -/
def containsSub (k pref : List Char) : Bool := decide (pref <:+: k.map Char.toLower)

/-- Preference substrings of `build_chunks_and_embeddings`, in source order. -/
def prefsList : List (List Char) :=
  [toL (r"results"), toL (r"result"), toL (r"discussion"), toL (r"conclusion"),
   toL (r"abstract"), toL (r"full_text")]

/-- Section-ordering loop of `build_chunks_and_embeddings` (lines 310–319):
for each preference substring, append every not-yet-listed key containing it;
then append all remaining keys in their original order. -/
def buildOrder (keys : List (List Char)) : List (List Char) :=
  let order := prefsList.foldl (fun order pref =>
    keys.foldl (fun order k =>
      if containsSub k pref ∧ k ∉ order then order ++ [k] else order) order) []
  keys.foldl (fun order k => if k ∉ order then order ++ [k] else order) order

/-- Processed publication record (the fields the indexer reads). -/
structure PubRec where
  id : List Char
  sections : List (List Char × List Char)
deriving DecidableEq, Repr

/-- Python `secs.get(k, "")` on the insertion-ordered dict of sections. -/
def dictGet (d : List (List Char × List Char)) (k : List Char) : List Char :=
  ((d.find? (fun p => p.1 == k)).map Prod.snd).getD []

/-- One entry of `chunks_meta.json`. -/
structure ChunkMeta where
  pub_id : List Char
  «section» : List Char
  start : Nat
  «end» : Nat
  excerpt : List Char
deriving DecidableEq, Repr

/-- Metadata dict appended per chunk (lines 327–333). -/
def mkMeta (pid sec : List Char) (ch : Chunk) : ChunkMeta :=
  ⟨pid, sec, ch.start, ch.«end», ch.text.take 300⟩

/-- The texts/meta accumulation loop of `build_chunks_and_embeddings`
(lines 304–333): lock-step appends to the `texts` and `meta` lists. -/
def build_chunks_texts_meta (records : List PubRec) :
    List (List Char) × List ChunkMeta :=
  records.foldl (fun tm rec =>
    (buildOrder (rec.sections.map Prod.fst)).foldl (fun tm sec =>
      if dictGet rec.sections sec = [] ∨ (pstrip (dictGet rec.sections sec)).length < 40
      then tm
      else (split_text_to_chunks (dictGet rec.sections sec)
          CHUNK_SIZE_CHARS CHUNK_OVERLAP).foldl
        (fun tm ch => (tm.1 ++ [ch.text], tm.2 ++ [mkMeta rec.id sec ch])) tm) tm)
    ([], [])

/-- Batching loop `for i in range(0, len(texts), BATCH_SIZE_EMB)`. -/
def toBatches {α : Type _} : List α → List (List α)
  | [] => []
  | a :: l => ((a :: l).take BATCH_SIZE_EMB) :: toBatches ((a :: l).drop BATCH_SIZE_EMB)
termination_by l => l.length
decreasing_by simp [List.length_drop, BATCH_SIZE_EMB]; omega

/-- Encoding `model.encode` over batches followed by `np.vstack`: the embedding
function `E` is opaque and returns exactly one row per input text. -/
def embedAll {V : Type _} (E : List Char → V) (texts : List (List Char)) : List V :=
  ((toBatches texts).map (fun b => b.map E)).flatten

/-- The four artifacts the indexing phase can write. -/
inductive Artifact where
  | embeddingsNpy | chunksMeta | faissIdx | indexInfo
deriving DecidableEq, Repr

/-- Model of `build_chunks_and_embeddings` (lines 302–347): returns
`(None, no writes)` when no chunk qualifies, otherwise the stacked embedding
matrix and the metadata sequence, writing `embeddings.npy` then
`chunks_meta.json`. -/
def build_chunks_and_embeddings {V : Type _} (E : List Char → V)
    (records : List PubRec) : Option (List V × List ChunkMeta) × List Artifact :=
  let tm := build_chunks_texts_meta records
  if tm.1 = [] then (none, [])
  else (some (embedAll E tm.1, tm.2), [Artifact.embeddingsNpy, Artifact.chunksMeta])

/-- Model of `build_faiss` (lines 349–358): writes the index file and the info file. -/
def build_faiss {V : Type _} (_embeddings : List V) : List Artifact :=
  [Artifact.faissIdx, Artifact.indexInfo]

/-- Driver behaviour shared by `ingest_epmc.main` and `rebuild_index.main`:
when `build_chunks_and_embeddings` returns `None` the run stops before
`build_faiss`; otherwise `build_faiss` runs on the matrix. -/
def rebuild_main {V : Type _} (E : List Char → V) (records : List PubRec) :
    List Artifact :=
  match build_chunks_and_embeddings E records with
  | (none, w) => w
  | (some (emb, _m), w) => w ++ build_faiss emb

theorem foldl_pair_append {α β γ : Type _} (g : List β × List γ → α → List β × List γ)
    (m : α → List β) (v : α → List γ)
    (hg : ∀ tm x, g tm x = (tm.1 ++ m x, tm.2 ++ v x)) :
    ∀ (l : List α) (tm : List β × List γ),
      l.foldl g tm = (tm.1 ++ (l.map m).flatten, tm.2 ++ (l.map v).flatten) := by
  intro l
  induction l with
  | nil => intro tm; simp
  | cons a l ih =>
    intro tm
    rw [List.foldl_cons, hg, ih]
    simp [List.append_assoc]

theorem flatten_singletons {α β : Type _} (f : α → β) (l : List α) :
    (l.map (fun x => [f x])).flatten = l.map f := by
  induction l with
  | nil => rfl
  | cons a l ih => simp [ih]

/-- The `(text, metadata)` pairs one qualifying section contributes. -/
def chunkPairsOfSec (rec : PubRec) (sec : List Char) : List (List Char × ChunkMeta) :=
  if dictGet rec.sections sec = [] ∨ (pstrip (dictGet rec.sections sec)).length < 40
  then []
  else (split_text_to_chunks (dictGet rec.sections sec)
      CHUNK_SIZE_CHARS CHUNK_OVERLAP).map
    (fun ch => (ch.text, mkMeta rec.id sec ch))

/-- The pairs one record contributes, over its preference-ordered sections. -/
def chunkPairsOfRec (rec : PubRec) : List (List Char × ChunkMeta) :=
  ((buildOrder (rec.sections.map Prod.fst)).map (chunkPairsOfSec rec)).flatten

/-- The pairs the whole corpus contributes. -/
def chunkPairs (records : List PubRec) : List (List Char × ChunkMeta) :=
  (records.map chunkPairsOfRec).flatten

theorem inner_foldl_eq (rec : PubRec) (sec : List Char)
    (tm : List (List Char) × List ChunkMeta) :
    (if dictGet rec.sections sec = [] ∨ (pstrip (dictGet rec.sections sec)).length < 40
     then tm
     else (split_text_to_chunks (dictGet rec.sections sec)
         CHUNK_SIZE_CHARS CHUNK_OVERLAP).foldl
       (fun tm ch => (tm.1 ++ [ch.text], tm.2 ++ [mkMeta rec.id sec ch])) tm)
    = (tm.1 ++ (chunkPairsOfSec rec sec).map Prod.fst,
       tm.2 ++ (chunkPairsOfSec rec sec).map Prod.snd) := by
  by_cases hc : dictGet rec.sections sec = [] ∨
      (pstrip (dictGet rec.sections sec)).length < 40
  · simp [chunkPairsOfSec, hc]
  · rw [if_neg hc, chunkPairsOfSec, if_neg hc]
    rw [foldl_pair_append _ (fun ch => [ch.text]) (fun ch => [mkMeta rec.id sec ch])
      (fun tm x => rfl)]
    rw [flatten_singletons, flatten_singletons, List.map_map, List.map_map]
    rfl

theorem rec_foldl_eq (rec : PubRec) (tm : List (List Char) × List ChunkMeta) :
    ((buildOrder (rec.sections.map Prod.fst)).foldl (fun tm sec =>
      if dictGet rec.sections sec = [] ∨ (pstrip (dictGet rec.sections sec)).length < 40
      then tm
      else (split_text_to_chunks (dictGet rec.sections sec)
          CHUNK_SIZE_CHARS CHUNK_OVERLAP).foldl
        (fun tm ch => (tm.1 ++ [ch.text], tm.2 ++ [mkMeta rec.id sec ch])) tm) tm)
    = (tm.1 ++ (chunkPairsOfRec rec).map Prod.fst,
       tm.2 ++ (chunkPairsOfRec rec).map Prod.snd) := by
  rw [foldl_pair_append _ (fun sec => (chunkPairsOfSec rec sec).map Prod.fst)
      (fun sec => (chunkPairsOfSec rec sec).map Prod.snd)
      (fun tm sec => inner_foldl_eq rec sec tm)]
  rw [chunkPairsOfRec, List.map_flatten, List.map_flatten, List.map_map, List.map_map]
  rfl

/-- The lock-step loop builds exactly the first/second projections of the
per-chunk pair list: positional correspondence of texts and metadata. -/
theorem build_tm_eq_pairs (records : List PubRec) :
    build_chunks_texts_meta records
      = ((chunkPairs records).map Prod.fst, (chunkPairs records).map Prod.snd) := by
  rw [build_chunks_texts_meta,
    foldl_pair_append _ (fun rec => (chunkPairsOfRec rec).map Prod.fst)
      (fun rec => (chunkPairsOfRec rec).map Prod.snd)
      (fun tm rec => rec_foldl_eq rec tm)]
  rw [chunkPairs, List.map_flatten, List.map_flatten, List.map_map, List.map_map]
  simp only [List.nil_append]
  rfl

theorem zip_map_fst_snd {α β : Type _} (l : List (α × β)) :
    (l.map Prod.fst).zip (l.map Prod.snd) = l := by
  induction l with
  | nil => rfl
  | cons a l ih => simp [ih]

theorem embedAll_eq_map {V : Type _} (E : List Char → V) (texts : List (List Char)) :
    embedAll E texts = texts.map E := by
  suffices h : ∀ n (l : List (List Char)), l.length ≤ n → embedAll E l = l.map E from
    h texts.length texts le_rfl
  intro n
  induction n with
  | zero =>
    intro l hl
    have : l = [] := List.eq_nil_of_length_eq_zero (Nat.le_zero.mp hl)
    subst this; simp [embedAll, toBatches]
  | succ n ih =>
    intro l hl
    cases l with
    | nil => simp [embedAll, toBatches]
    | cons a l' =>
      rw [embedAll, toBatches]
      simp only [List.map_cons, List.flatten_cons]
      have hdrop : ((a :: l').drop BATCH_SIZE_EMB).length ≤ n := by
        simp only [List.length_drop, List.length_cons, BATCH_SIZE_EMB] at *
        omega
      have hrest : ((toBatches ((a :: l').drop BATCH_SIZE_EMB)).map
          (fun b => b.map E)).flatten = ((a :: l').drop BATCH_SIZE_EMB).map E := by
        rw [← embedAll, ih _ hdrop]
      rw [hrest, ← List.map_append, List.take_append_drop]
      rfl

/-- Claim C1 — confirmed.  In every rebuild pass the embedding rows and the
metadata entries are a matched pair in the same order: the matrix is exactly
the image of the text list under the (one-vector-per-text) embedding
function, its row count equals the metadata length, and the i-th metadata
entry describes the i-th text chunk (same excerpt prefix, and the pair comes
from one chunk of the named record's named section). -/
theorem claim_C1 {V : Type _} (E : List Char → V) (records : List PubRec) :
    (embedAll E (build_chunks_texts_meta records).1).length
        = (build_chunks_texts_meta records).2.length ∧
    embedAll E (build_chunks_texts_meta records).1
        = (build_chunks_texts_meta records).1.map E ∧
    ∀ p ∈ (build_chunks_texts_meta records).1.zip (build_chunks_texts_meta records).2,
      p.2.excerpt = p.1.take 300 ∧
      ∃ rec ∈ records, p.2.pub_id = rec.id ∧
        ∃ ch ∈ split_text_to_chunks (dictGet rec.sections p.2.«section»)
            CHUNK_SIZE_CHARS CHUNK_OVERLAP,
          p.1 = ch.text ∧ p.2.start = ch.start ∧ p.2.«end» = ch.«end» := by
  rw [build_tm_eq_pairs]
  refine ⟨?_, embedAll_eq_map E _, ?_⟩
  · rw [embedAll_eq_map]
    simp
  · rw [zip_map_fst_snd]
    intro p hp
    obtain ⟨lp, hlp, hplp⟩ := List.mem_flatten.mp hp
    obtain ⟨rec, hrec, rfl⟩ := List.mem_map.mp hlp
    obtain ⟨ls, hls, hpls⟩ := List.mem_flatten.mp hplp
    obtain ⟨sec, _hsec, rfl⟩ := List.mem_map.mp hls
    rw [chunkPairsOfSec] at hpls
    by_cases hc : dictGet rec.sections sec = [] ∨
        (pstrip (dictGet rec.sections sec)).length < 40
    · rw [if_pos hc] at hpls
      cases hpls
    · rw [if_neg hc] at hpls
      obtain ⟨ch, hch, rfl⟩ := List.mem_map.mp hpls
      exact ⟨rfl, rec, hrec, rfl, ch, hch, rfl, rfl, rfl⟩

theorem claim_C1_witness :
    (embedAll (fun t => t.length)
        (build_chunks_texts_meta
          [PubRec.mk (toL (r"PMC1"))
            [(toL (r"results"),
              toL (r"AAAAAAAAAAAAAAAAAAAAAAAAAAAAAAAAAAAAAAAAAAAAAAAAAA"))]]).1).length
      = (build_chunks_texts_meta
          [PubRec.mk (toL (r"PMC1"))
            [(toL (r"results"),
              toL (r"AAAAAAAAAAAAAAAAAAAAAAAAAAAAAAAAAAAAAAAAAAAAAAAAAA"))]]).2.length :=
  (claim_C1 (fun t => t.length) _).1

/-- Claim C8 — confirmed.  When no section of any record passes the length
filter, `build_chunks_and_embeddings` returns `None` having written nothing,
and the driver stops before `build_faiss`: no artifact at all is written. -/
theorem claim_C8 {V : Type _} (E : List Char → V) (records : List PubRec)
    (h : ∀ rec ∈ records, ∀ kv ∈ rec.sections,
      kv.2 = [] ∨ (pstrip kv.2).length < 40) :
    (build_chunks_and_embeddings E records).1 = none ∧
    (build_chunks_and_embeddings E records).2 = [] ∧
    rebuild_main E records = [] := by
  have htexts : (build_chunks_texts_meta records).1 = [] := by
    rw [build_tm_eq_pairs]
    suffices hcp : chunkPairs records = [] by rw [hcp]; rfl
    rw [chunkPairs, List.flatten_eq_nil_iff]
    intro l hl
    obtain ⟨rec, hrec, rfl⟩ := List.mem_map.mp hl
    rw [chunkPairsOfRec, List.flatten_eq_nil_iff]
    intro ls hls
    obtain ⟨sec, _hsec, rfl⟩ := List.mem_map.mp hls
    rw [chunkPairsOfSec]
    cases hfind : rec.sections.find? (fun p => p.1 == sec) with
    | none => simp [dictGet, hfind]
    | some pe =>
      have hdg : dictGet rec.sections sec = pe.2 := by simp [dictGet, hfind]
      rw [if_pos]
      rw [hdg]
      exact h rec hrec pe (List.mem_of_find?_eq_some hfind)
  refine ⟨?_, ?_, ?_⟩
  · simp [build_chunks_and_embeddings, htexts]
  · simp [build_chunks_and_embeddings, htexts]
  · simp [rebuild_main, build_chunks_and_embeddings, htexts]

theorem claim_C8_witness :
    (build_chunks_and_embeddings (fun t => t.length)
        [PubRec.mk (toL (r"PMC9")) [(toL (r"abstract"), toL (r"short"))]]).1 = none ∧
    (build_chunks_and_embeddings (fun t => t.length)
        [PubRec.mk (toL (r"PMC9")) [(toL (r"abstract"), toL (r"short"))]]).2 = [] ∧
    rebuild_main (fun t => t.length)
        [PubRec.mk (toL (r"PMC9")) [(toL (r"abstract"), toL (r"short"))]] = [] :=
  claim_C8 (fun t => t.length) _ (by decide)

/-- Filename matcher for the glob pattern `PMC*.json`. -/
def isPMCJsonName (n : List Char) : Bool :=
  (toL (r"PMC")).isPrefixOf n && (toL (r".json")).isSuffixOf n && decide (8 ≤ n.length)

/-- Model of `rebuild_index.load_cached_records`: the publications directory is a
finite set of `(filename, record)` pairs obtained in arbitrary enumeration
order; the loader keeps names matching `PMC*.json`, sorts them, and loads
record contents in sorted-filename order. -/
def load_cached_records (store : List (List Char × PubRec)) : List PubRec :=
  (List.insertionSort (fun a b => a.1 ≤ b.1)
    (store.filter (fun e => isPMCJsonName e.1))).map Prod.snd

theorem load_cached_records_perm_invariant
    (store1 store2 : List (List Char × PubRec))
    (hperm : store1.Perm store2) (hnd : (store1.map Prod.fst).Nodup) :
    load_cached_records store1 = load_cached_records store2 := by
  haveI hto : IsTotal (List Char × PubRec) (fun a b => a.1 ≤ b.1) :=
    ⟨fun a b => le_total a.1 b.1⟩
  haveI htr : IsTrans (List Char × PubRec) (fun a b => a.1 ≤ b.1) :=
    ⟨fun _ _ _ h1 h2 => le_trans h1 h2⟩
  haveI has : IsAntisymm (List Char × PubRec) (fun a b => a.1 < b.1) :=
    ⟨fun _ _ h1 h2 => absurd h2 (lt_asymm h1)⟩
  unfold load_cached_records
  congr 1
  have hfp : (store1.filter (fun e => isPMCJsonName e.1)).Perm
      (store2.filter (fun e => isPMCJsonName e.1)) := hperm.filter _
  have hsp : (List.insertionSort (fun a b => a.1 ≤ b.1)
        (store1.filter (fun e => isPMCJsonName e.1))).Perm
      (List.insertionSort (fun a b => a.1 ≤ b.1)
        (store2.filter (fun e => isPMCJsonName e.1))) :=
    (List.perm_insertionSort _ _).trans (hfp.trans (List.perm_insertionSort _ _).symm)
  have hndf : ∀ (s : List (List Char × PubRec)), store1.Perm s →
      ((List.insertionSort (fun a b => a.1 ≤ b.1)
        (s.filter (fun e => isPMCJsonName e.1))).map Prod.fst).Nodup := by
    intro s hs
    have h1 : (s.map Prod.fst).Nodup := (hs.map Prod.fst).nodup_iff.mp hnd
    have h2 : ((s.filter (fun e => isPMCJsonName e.1)).map Prod.fst).Nodup :=
      h1.sublist ((List.filter_sublist s).map Prod.fst)
    exact ((List.perm_insertionSort (fun a b => a.1 ≤ b.1) _).map Prod.fst).nodup_iff.mpr h2
  have hstrict : ∀ (s : List (List Char × PubRec)), store1.Perm s →
      List.Sorted (fun a b : List Char × PubRec => a.1 < b.1)
        (List.insertionSort (fun a b => a.1 ≤ b.1)
          (s.filter (fun e => isPMCJsonName e.1))) := by
    intro s hs
    have hle := List.sorted_insertionSort (fun a b : List Char × PubRec => a.1 ≤ b.1)
      (s.filter (fun e => isPMCJsonName e.1))
    have hne : List.Pairwise (fun a b : List Char × PubRec => a.1 ≠ b.1)
        (List.insertionSort (fun a b => a.1 ≤ b.1)
          (s.filter (fun e => isPMCJsonName e.1))) :=
      List.pairwise_map.mp (hndf s hs)
    exact (hle.and hne).imp (fun h => lt_of_le_of_ne h.1 h.2)
  exact List.eq_of_perm_of_sorted hsp (hstrict store1 (List.Perm.refl _))
    (hstrict store2 hperm)

/-- Claim C4 — confirmed.  Two rebuild passes over an unchanged processed
record store (two arbitrary directory enumerations of the same files,
distinct filenames) load the same records in the same sorted order and
therefore produce chunk-metadata sequences of identical length with
identical entries — in particular identical
`(pub_id, section, start, end)` tuples — at every position. -/
theorem claim_C4 (store1 store2 : List (List Char × PubRec))
    (hperm : store1.Perm store2) (hnd : (store1.map Prod.fst).Nodup) :
    load_cached_records store1 = load_cached_records store2 ∧
    (build_chunks_texts_meta (load_cached_records store1)).2
      = (build_chunks_texts_meta (load_cached_records store2)).2 ∧
    (build_chunks_texts_meta (load_cached_records store1)).2.length
      = (build_chunks_texts_meta (load_cached_records store2)).2.length := by
  have hload := load_cached_records_perm_invariant store1 store2 hperm hnd
  exact ⟨hload, by rw [hload], by rw [hload]⟩

theorem claim_C4_witness :
    load_cached_records
        [(toL (r"PMCb.json"), PubRec.mk (toL (r"PMCb")) []),
         (toL (r"PMCa.json"), PubRec.mk (toL (r"PMCa")) [])]
      = load_cached_records
        [(toL (r"PMCa.json"), PubRec.mk (toL (r"PMCa")) []),
         (toL (r"PMCb.json"), PubRec.mk (toL (r"PMCb")) [])] :=
  (claim_C4 _ _ (by decide) (by decide)).1

/-- Does the key contain at least one of the preference substrings? -/
def matchesAnyP (ps : List (List Char)) (k : List Char) : Prop :=
  ∃ p ∈ ps, containsSub k p = true

instance (ps : List (List Char)) (k : List Char) : Decidable (matchesAnyP ps k) :=
  List.decidableBEx _ ps

theorem matchesAnyP_append (l1 l2 : List (List Char)) (k : List Char) :
    matchesAnyP (l1 ++ l2) k ↔ matchesAnyP l1 k ∨ matchesAnyP l2 k := by
  simp only [matchesAnyP, List.mem_append]
  constructor
  · rintro ⟨p, hp | hp, hc⟩
    · exact Or.inl ⟨p, hp, hc⟩
    · exact Or.inr ⟨p, hp, hc⟩
  · rintro (⟨p, hp, hc⟩ | ⟨p, hp, hc⟩)
    · exact ⟨p, Or.inl hp, hc⟩
    · exact ⟨p, Or.inr hp, hc⟩

/-- Spec-shaped ordering: one tier per preference substring — a key lands in
the tier of the first substring it contains, tiers in preference order,
discovery order within a tier. -/
def tiersFrom (earlier ps keys : List (List Char)) : List (List Char) :=
  match ps with
  | [] => []
  | p :: ps' =>
    keys.filter (fun k => decide (containsSub k p = true ∧ ¬ matchesAnyP earlier k))
      ++ tiersFrom (earlier ++ [p]) ps' keys

/-- Spec-shaped section order: the preference tiers, then all unmatched keys
in their original discovery order. -/
def specOrderTiers (keys : List (List Char)) : List (List Char) :=
  tiersFrom [] prefsList keys
    ++ keys.filter (fun k => decide (¬ matchesAnyP prefsList k))

theorem foldl_insert_cond (c : List Char → Bool) :
    ∀ (keys ord : List (List Char)), keys.Nodup →
      keys.foldl (fun ord k => if c k ∧ k ∉ ord then ord ++ [k] else ord) ord
        = ord ++ keys.filter (fun k => decide (c k = true ∧ k ∉ ord)) := by
  intro keys
  induction keys with
  | nil => intro ord _; simp
  | cons a keys ih =>
    intro ord hnd
    obtain ⟨hna, hnd'⟩ := List.nodup_cons.mp hnd
    rw [List.foldl_cons, List.filter_cons]
    by_cases hca : c a = true ∧ a ∉ ord
    · rw [if_pos hca, ih (ord ++ [a]) hnd']
      have hrw : keys.filter (fun k => decide (c k = true ∧ k ∉ ord ++ [a]))
          = keys.filter (fun k => decide (c k = true ∧ k ∉ ord)) := by
        apply List.filter_congr
        intro k hk
        rw [decide_eq_decide]
        have hkna : k ≠ a := fun he => hna (he ▸ hk)
        simp [List.mem_append, hkna]
      rw [hrw]
      simp [hca]
    · rw [if_neg hca]
      have hda : decide (c a = true ∧ a ∉ ord) = false := by
        simpa using hca
      rw [hda, ih ord hnd']
      simp

theorem foldl_insert_all :
    ∀ (keys ord : List (List Char)), keys.Nodup →
      keys.foldl (fun ord k => if k ∉ ord then ord ++ [k] else ord) ord
        = ord ++ keys.filter (fun k => decide (k ∉ ord)) := by
  intro keys
  induction keys with
  | nil => intro ord _; simp
  | cons a keys ih =>
    intro ord hnd
    obtain ⟨hna, hnd'⟩ := List.nodup_cons.mp hnd
    rw [List.foldl_cons, List.filter_cons]
    by_cases hca : a ∉ ord
    · rw [if_pos hca, ih (ord ++ [a]) hnd']
      have hrw : keys.filter (fun k => decide (k ∉ ord ++ [a]))
          = keys.filter (fun k => decide (k ∉ ord)) := by
        apply List.filter_congr
        intro k hk
        rw [decide_eq_decide]
        have hkna : k ≠ a := fun he => hna (he ▸ hk)
        simp [List.mem_append, hkna]
      rw [hrw]
      simp [hca]
    · rw [if_neg hca]
      have hda : decide (a ∉ ord) = false := by simpa using hca
      rw [hda, ih ord hnd']
      simp

theorem prefs_foldl_spec (keys : List (List Char)) (hnd : keys.Nodup) :
    ∀ (ps earlier ord : List (List Char)),
      (∀ k ∈ keys, (k ∈ ord ↔ matchesAnyP earlier k)) →
      (ps.foldl (fun order pref =>
          keys.foldl (fun order k =>
            if containsSub k pref ∧ k ∉ order then order ++ [k] else order) order) ord
        = ord ++ tiersFrom earlier ps keys) ∧
      (∀ k ∈ keys,
        (k ∈ ord ++ tiersFrom earlier ps keys ↔ matchesAnyP (earlier ++ ps) k)) := by
  intro ps
  induction ps with
  | nil =>
    intro earlier ord hinv
    refine ⟨by simp [tiersFrom], ?_⟩
    intro k hk
    simpa [tiersFrom] using hinv k hk
  | cons p ps ih =>
    intro earlier ord hinv
    rw [List.foldl_cons]
    have hA := foldl_insert_cond (fun k => containsSub k p) keys ord hnd
    have hfc : keys.filter (fun k => decide (containsSub k p = true ∧ k ∉ ord))
        = keys.filter (fun k =>
            decide (containsSub k p = true ∧ ¬ matchesAnyP earlier k)) := by
      apply List.filter_congr
      intro k hk
      rw [decide_eq_decide]
      simp [hinv k hk]
    rw [hfc] at hA
    have hinv' : ∀ k ∈ keys,
        (k ∈ ord ++ keys.filter (fun k =>
            decide (containsSub k p = true ∧ ¬ matchesAnyP earlier k))
          ↔ matchesAnyP (earlier ++ [p]) k) := by
      intro k hk
      rw [matchesAnyP_append]
      have hone : matchesAnyP [p] k ↔ containsSub k p = true := by
        simp [matchesAnyP]
      rw [hone, List.mem_append, List.mem_filter, hinv k hk]
      simp only [decide_eq_true_eq, hk, true_and]
      by_cases hm : matchesAnyP earlier k <;> by_cases hcp : containsSub k p = true <;>
        simp [hm, hcp]
    obtain ⟨ihEq, ihInv⟩ := ih (earlier ++ [p]) _ hinv'
    constructor
    · rw [hA, ihEq, tiersFrom, List.append_assoc]
    · intro k hk
      have hres := ihInv k hk
      rw [tiersFrom, ← List.append_assoc, List.append_cons earlier p ps]
      exact hres

/-- The loop-built preference order equals the spec-shaped tier order. -/
theorem buildOrder_eq_spec (keys : List (List Char)) (hnd : keys.Nodup) :
    buildOrder keys = specOrderTiers keys := by
  obtain ⟨hEq, hInv⟩ := prefs_foldl_spec keys hnd prefsList [] []
    (by intro k _; simp [matchesAnyP])
  show keys.foldl _ (prefsList.foldl _ []) = _
  rw [hEq, foldl_insert_all keys _ hnd]
  rw [specOrderTiers]
  simp only [List.nil_append] at hInv ⊢
  congr 1
  apply List.filter_congr
  intro k hk
  rw [decide_eq_decide, hInv k hk]

theorem tiersFrom_subset :
    ∀ (ps earlier keys : List (List Char)) (k : List Char),
      k ∈ tiersFrom earlier ps keys → k ∈ keys := by
  intro ps
  induction ps with
  | nil => intro earlier keys k h; simp [tiersFrom] at h
  | cons p ps ih =>
    intro earlier keys k h
    rw [tiersFrom, List.mem_append] at h
    rcases h with h | h
    · exact (List.mem_filter.mp h).1
    · exact ih _ _ _ h

/-- Membership in the built order is exactly membership in the key list. -/
theorem mem_buildOrder (keys : List (List Char)) (hnd : keys.Nodup)
    (k : List Char) : k ∈ buildOrder keys ↔ k ∈ keys := by
  rw [buildOrder_eq_spec keys hnd, specOrderTiers, List.mem_append]
  constructor
  · rintro (h | h)
    · exact tiersFrom_subset _ _ _ _ h
    · exact (List.mem_filter.mp h).1
  · intro hk
    obtain ⟨_, hInv⟩ := prefs_foldl_spec keys hnd prefsList [] []
      (by intro k _; simp [matchesAnyP])
    simp only [List.nil_append] at hInv
    by_cases hm : matchesAnyP prefsList k
    · exact Or.inl ((hInv k hk).mpr (by simpa using hm))
    · exact Or.inr (List.mem_filter.mpr ⟨hk, by simpa using hm⟩)

/-- Claim C5 — amended.  The code's preference list has six entries —
"results", "result", "discussion", "conclusion", "abstract", "full_text" —
the extra "result" tier catching keys such as `result_x` ahead of
"discussion"; tiers keep discovery order, remaining sections follow in
original order; and a section contributes chunks if and only if its trimmed
length is at least the threshold of 40 characters (not strictly above it). -/
theorem claim_C5 (keys : List (List Char)) (hk : keys.Nodup) (rec : PubRec)
    (hrec : (rec.sections.map Prod.fst).Nodup) (s : List Char) :
    buildOrder keys = specOrderTiers keys ∧
    ((∃ m ∈ (build_chunks_texts_meta [rec]).2, m.«section» = s) ↔
      (s ∈ rec.sections.map Prod.fst ∧
        40 ≤ (pstrip (dictGet rec.sections s)).length)) := by
  refine ⟨buildOrder_eq_spec keys hk, ?_⟩
  rw [build_tm_eq_pairs]
  constructor
  · rintro ⟨m, hm, hms⟩
    obtain ⟨p, hp, rfl⟩ := List.mem_map.mp hm
    obtain ⟨lp, hlp, hplp⟩ := List.mem_flatten.mp hp
    obtain ⟨rec', hrec', rfl⟩ := List.mem_map.mp hlp
    have hre : rec' = rec := by simpa using hrec'
    subst hre
    obtain ⟨ls, hls, hpls⟩ := List.mem_flatten.mp hplp
    obtain ⟨sec, hsec, rfl⟩ := List.mem_map.mp hls
    rw [chunkPairsOfSec] at hpls
    by_cases hc : dictGet rec'.sections sec = [] ∨
        (pstrip (dictGet rec'.sections sec)).length < 40
    · rw [if_pos hc] at hpls
      cases hpls
    · rw [if_neg hc] at hpls
      obtain ⟨ch, _hch, rfl⟩ := List.mem_map.mp hpls
      have hss : sec = s := hms
      subst hss
      push_neg at hc
      exact ⟨(mem_buildOrder _ hrec sec).mp hsec, by omega⟩
  · rintro ⟨hsk, hlen⟩
    have htxt_ne : dictGet rec.sections s ≠ [] := by
      intro he
      rw [he] at hlen
      simp [pstrip] at hlen
    have hxcond : ¬ (dictGet rec.sections s = [] ∨
        (pstrip (dictGet rec.sections s)).length < 40) := by
      push_neg
      exact ⟨htxt_ne, by omega⟩
    obtain ⟨hchain, hnil⟩ := split_text_to_chunks_chain (dictGet rec.sections s)
      CHUNK_SIZE_CHARS CHUNK_OVERLAP (by decide) htxt_ne
    obtain ⟨ch, hchm⟩ := List.exists_mem_of_ne_nil _ hnil
    refine ⟨mkMeta rec.id s ch, ?_, rfl⟩
    have hpair : (ch.text, mkMeta rec.id s ch) ∈ chunkPairsOfSec rec s := by
      rw [chunkPairsOfSec, if_neg hxcond]
      exact List.mem_map_of_mem _ hchm
    have hsord : s ∈ buildOrder (rec.sections.map Prod.fst) :=
      (mem_buildOrder _ hrec s).mpr hsk
    have hinrec : (ch.text, mkMeta rec.id s ch) ∈ chunkPairsOfRec rec :=
      List.mem_flatten.mpr ⟨chunkPairsOfSec rec s, List.mem_map_of_mem _ hsord, hpair⟩
    have hin : (ch.text, mkMeta rec.id s ch) ∈ chunkPairs [rec] :=
      List.mem_flatten.mpr ⟨chunkPairsOfRec rec, by simp [chunkPairs], hinrec⟩
    exact List.mem_map_of_mem Prod.snd hin

/-- Ordering exactly as claim C5 words it: five preference substrings (no
separate "result" tier) and a strict threshold.  Used only to exhibit the
divergence from the code. -/
def claimPrefsList : List (List Char) :=
  [toL (r"results"), toL (r"discussion"), toL (r"conclusion"), toL (r"abstract"),
   toL (r"full_text")]

/-- Section order as claim C5 describes it, built from `claimPrefsList`. -/
def claimOrderC5 (keys : List (List Char)) : List (List Char) :=
  tiersFrom [] claimPrefsList keys
    ++ keys.filter (fun k => decide (¬ matchesAnyP claimPrefsList k))

/-- Claim C5 — counterexample to the claim as stated: with sections
discovered in order `discussion`, `result_x`, the code emits `result_x`
first (the undocumented "result" tier precedes "discussion"), while the
claimed five-tier order puts `discussion` first; and a section of trimmed
length exactly 40 — not exceeding the threshold — still contributes a
chunk. -/
theorem claim_C5_counterexample :
    (buildOrder [toL (r"discussion"), toL (r"result_x")]
      ≠ claimOrderC5 [toL (r"discussion"), toL (r"result_x")]) ∧
    ((pstrip (dictGet [(toL (r"intro"), List.replicate 40 'A')]
        (toL (r"intro")))).length = 40) ∧
    ((build_chunks_texts_meta
        [PubRec.mk (toL (r"PMC7"))
          [(toL (r"intro"), List.replicate 40 'A')]]).2.length = 1) := by
  decide

theorem claim_C5_witness :
    buildOrder [toL (r"results"), toL (r"intro")]
      = specOrderTiers [toL (r"results"), toL (r"intro")] :=
  (claim_C5 [toL (r"results"), toL (r"intro")] (by decide)
    (PubRec.mk (toL (r"PMC1")) [(toL (r"results"), List.replicate 50 'A')])
    (by decide) (toL (r"results"))).1

/-- Known accession-column aliases of `find_pmcid_in_row`. -/
def ALIASES : List (List Char) :=
  [toL (r"pmcid"), toL (r"pmc id"), toL (r"pmc_id"), toL (r"pmc")]

/-- Python `s.lower()` (ASCII data). -/
def lowerL (s : List Char) : List Char := s.map Char.toLower

/-- Python `re.search(r"(PMC\d+)", s, re.I)` tried at the head of `s`:
case-insensitive `PMC` followed by the maximal nonempty digit run, the match
returned as it appears in the text. -/
def matchPMCAt : List Char → Option (List Char)
  | p :: m :: c :: rest =>
    if (p = 'P' ∨ p = 'p') ∧ (m = 'M' ∨ m = 'm') ∧ (c = 'C' ∨ c = 'c') then
      match rest.takeWhile Char.isDigit with
      | [] => none
      | ds => some (p :: m :: c :: ds)
    else none
  | _ => none

/-- Leftmost occurrence of the accession pattern anywhere in the text. -/
def searchPMC : List Char → Option (List Char)
  | [] => none
  | c :: rest =>
    match matchPMCAt (c :: rest) with
    | some m => some m
    | none => searchPMC rest

/-- Python `s.strip("/")`. -/
def stripSlash (s : List Char) : List Char :=
  ((s.dropWhile (fun c => c == '/')).reverse.dropWhile (fun c => c == '/')).reverse

/-- Trailing path segment: `s.strip("/").split("/")[-1]`. -/
def lastSegment (s : List Char) : List Char :=
  (List.splitOn '/' (stripSlash s)).getLastD []

/-- URL-rule guard: `"http" in s and "ncbi.nlm.nih.gov/pmc/articles" in s`. -/
def urlCond (s : List Char) : Bool :=
  decide ((toL (r"http")) <:+: s) &&
    decide ((toL (r"ncbi.nlm.nih.gov/pmc/articles")) <:+: s)

/-- Rules applied to one field, in source order: (a) alias-named column —
extracted token, or the raw stripped text when no token is found; (b)
recognized article-repository URL — trailing path segment; (c) token
anywhere in the text. -/
def resolveField (cname s : List Char) : Option (List Char) :=
  if lowerL cname ∈ ALIASES then some ((searchPMC s).getD s)
  else if urlCond s then some (lastSegment s)
  else searchPMC s

/-- Model of `ingest_epmc.find_pmcid_in_row`: fields in declared column order, a NaN
value (`none`) skipped; for each present field the three rules run in order,
the first producing value is returned. -/
def find_pmcid_in_row : List (List Char × Option (List Char)) → Option (List Char)
  | [] => none
  | (c, v) :: rest =>
    match v with
    | none => find_pmcid_in_row rest
    | some val =>
      if lowerL c ∈ ALIASES then some ((searchPMC (pstrip val)).getD (pstrip val))
      else if urlCond (pstrip val) then some (lastSegment (pstrip val))
      else
        match searchPMC (pstrip val) with
        | some m => some m
        | none => find_pmcid_in_row rest

/-- Field-major resolution, spec-shaped: the first field (in declared column
order) on which the per-field rule chain produces a value. -/
def specFieldMajor (row : List (List Char × Option (List Char))) :
    Option (List Char) :=
  row.findSome? (fun e =>
    match e.2 with
    | none => none
    | some val => resolveField e.1 (pstrip val))

/-- Rule-major resolution exactly as claim C6 words it: rule (a) over all
fields, then rule (b) over all fields, then rule (c) over all fields.  Used
only to exhibit the divergence from the code. -/
def claimRuleMajor (row : List (List Char × Option (List Char))) :
    Option (List Char) :=
  (row.findSome? (fun e => e.2.bind (fun val =>
      if lowerL e.1 ∈ ALIASES then some ((searchPMC (pstrip val)).getD (pstrip val))
      else none))) <|>
  (row.findSome? (fun e => e.2.bind (fun val =>
      if urlCond (pstrip val) then some (lastSegment (pstrip val)) else none))) <|>
  (row.findSome? (fun e => e.2.bind (fun val => searchPMC (pstrip val))))

theorem find_pmcid_eq_fieldMajor (row : List (List Char × Option (List Char))) :
    find_pmcid_in_row row = specFieldMajor row := by
  induction row with
  | nil => rfl
  | cons e rest ih =>
    obtain ⟨c, v⟩ := e
    cases v with
    | none => simpa [find_pmcid_in_row, specFieldMajor, List.findSome?_cons] using ih
    | some val =>
      by_cases ha : lowerL c ∈ ALIASES
      · simp [find_pmcid_in_row, specFieldMajor, List.findSome?_cons, resolveField, ha]
      · by_cases hu : urlCond (pstrip val) = true
        · simp [find_pmcid_in_row, specFieldMajor, List.findSome?_cons, resolveField,
            ha, hu]
        · cases hs : searchPMC (pstrip val) with
          | some m =>
            simp [find_pmcid_in_row, specFieldMajor, List.findSome?_cons, resolveField,
              ha, hu, hs]
          | none =>
            simpa [find_pmcid_in_row, specFieldMajor, List.findSome?_cons, resolveField,
              ha, hu, hs] using ih

/-- Claim C6 — amended.  The resolver is field-major, not rule-major: fields
are scanned in declared column order and, within each present field, rules
(a) alias column, (b) repository URL, (c) token-anywhere are applied in that
order; the first field on which any rule fires wins.  `none` is returned
exactly when no field matches any rule, and a row whose field holds
literally "PMC1234567" (earlier fields matching no rule) yields
"PMC1234567" whatever its column name. -/
theorem claim_C6_amended :
    (∀ row, find_pmcid_in_row row = specFieldMajor row) ∧
    (∀ row, (find_pmcid_in_row row = none ↔
      ∀ e ∈ row, ∀ val, e.2 = some val → resolveField e.1 (pstrip val) = none)) ∧
    (∀ c, find_pmcid_in_row [(c, some (toL (r"PMC1234567")))]
      = some (toL (r"PMC1234567"))) := by
  refine ⟨find_pmcid_eq_fieldMajor, ?_, ?_⟩
  · intro row
    rw [find_pmcid_eq_fieldMajor, specFieldMajor, List.findSome?_eq_none_iff]
    constructor
    · intro h e he val hval
      have := h e he
      rw [hval] at this
      exact this
    · intro h e he
      cases hv : e.2 with
      | none => simp
      | some val => simpa using h e he val hv
  · intro c
    by_cases ha : lowerL c ∈ ALIASES
    · simp only [find_pmcid_in_row, if_pos ha]
      decide
    · have hu : urlCond (pstrip (toL (r"PMC1234567"))) = false := by decide
      have hs : searchPMC (pstrip (toL (r"PMC1234567")))
          = some (toL (r"PMC1234567")) := by decide
      simp [find_pmcid_in_row, ha, hu, hs]

/-- Claim C6 — counterexample to the claim as stated: a row whose first
column "link" holds a PMC article URL and whose second column is the alias
"pmcid" holding "PMC123".  Rule-major order (the claim) would let the alias
rule win with "PMC123"; the code scans field-by-field and returns "PMC999"
from the URL in the first column. -/
theorem claim_C6_counterexample :
    find_pmcid_in_row
        [(toL (r"link"),
          some (toL (r"https://www.ncbi.nlm.nih.gov/pmc/articles/PMC999/"))),
         (toL (r"pmcid"), some (toL (r"PMC123")))]
      = some (toL (r"PMC999")) ∧
    claimRuleMajor
        [(toL (r"link"),
          some (toL (r"https://www.ncbi.nlm.nih.gov/pmc/articles/PMC999/"))),
         (toL (r"pmcid"), some (toL (r"PMC123")))]
      = some (toL (r"PMC123")) ∧
    toL (r"PMC999") ≠ toL (r"PMC123") := by
  decide

theorem claim_C6_witness :
    find_pmcid_in_row [(toL (r"anycol"), some (toL (r"PMC1234567")))]
      = some (toL (r"PMC1234567")) :=
  claim_C6_amended.2.2 (toL (r"anycol"))

/-- Minimal DOM produced by a successful BeautifulSoup parse: element nodes
with ordered children, and text nodes. -/
inductive Node where
  | text (s : List Char)
  | elem (name : List Char) (children : List Node)

mutual

/-- Preorder (document-order) traversal: the node and all its descendants. -/
def Node.allNodes : Node → List Node
  | .text s => [.text s]
  | .elem nm cs => .elem nm cs :: allNodesList cs

def allNodesList : List Node → List Node
  | [] => []
  | n :: ns => n.allNodes ++ allNodesList ns

end

mutual

/-- All descendant text-node strings, in document order (`.strings`). -/
def Node.strings : Node → List (List Char)
  | .text s => [s]
  | .elem _ cs => stringsList cs

def stringsList : List Node → List (List Char)
  | [] => []
  | n :: ns => n.strings ++ stringsList ns

end

/-- Method `get_text(separator=sep)`: descendant strings joined by `sep`. -/
def getTextSep (sep : List Char) (n : Node) : List Char :=
  List.intercalate sep n.strings

/-- Tag name of an element node; text nodes have none. -/
def elemName : Node → Option (List Char)
  | .text _ => none
  | .elem nm _ => some nm

/-- BeautifulSoup `find_all(name)`: matching elements in document order. -/
def findAllNamed (nm : List Char) (n : Node) : List Node :=
  n.allNodes.filter (fun d => elemName d == some nm)

/-- State-passing form of `re.sub(r"\s+", "_", s)`: each maximal whitespace
run becomes a single underscore. -/
def collapseWSAux (inRun : Bool) : List Char → List Char
  | [] => []
  | c :: rest =>
    if isPySpace c then
      if inRun then collapseWSAux true rest
      else '_' :: collapseWSAux true rest
    else c :: collapseWSAux false rest

/-- Section-key normalization `re.sub(r"\s+", "_", title.lower())[:60]`. -/
def sectionKey (title : List Char) : List Char :=
  (collapseWSAux false (lowerL title)).take 60

/-- Python `sections[key] = txt` on an insertion-ordered dict: overwrite in
place when the key exists, else append. -/
def assocSet (d : List (List Char × List Char)) (k v : List Char) :
    List (List Char × List Char) :=
  if d.any (fun p => p.1 == k) then
    d.map (fun p => if p.1 == k then (k, v) else p)
  else d ++ [(k, v)]

/-- Per-`<sec>` loop shared by the XML and HTML extractors: key from the
first `<title>` descendant (default "section"), body the section's full
text, empty bodies skipped. -/
def addSecSections (secs : List Node) (sections : List (List Char × List Char)) :
    List (List Char × List Char) :=
  secs.foldl (fun sections sec =>
    if pstrip (getTextSep ['\n'] sec) = [] then sections
    else assocSet sections
      (sectionKey (match (findAllNamed (toL (r"title")) sec).head? with
        | some t => pstrip (getTextSep [] t)
        | none => toL (r"section")))
      (pstrip (getTextSep ['\n'] sec))) sections

/-- Pure extraction of `parse_xml_sections` after a successful parse:
abstract, then `<sec>` elements, then the `<body>` full-text fallback. -/
def xmlSectionsOf (soup : Node) : List (List Char × List Char) :=
  let s0 : List (List Char × List Char) :=
    match (findAllNamed (toL (r"abstract")) soup).head? with
    | some t => [(toL (r"abstract"), pstrip (getTextSep ['\n'] t))]
    | none => []
  let s1 := addSecSections (findAllNamed (toL (r"sec")) soup) s0
  if s1 = [] then
    match (findAllNamed (toL (r"body")) soup).head? with
    | some b => [(toL (r"full_text"), pstrip (getTextSep ['\n'] b))]
    | none => s1
  else s1

/-- Case-sensitive `h1`–`h4` test (the `find_all(re.compile("^h[1-4]$"))`
filter; parser-produced names are lowercase). -/
def isHeadingCS (n : Node) : Bool :=
  match n with
  | .text _ => false
  | .elem nm _ =>
    match nm with
    | [h, d] => h == 'h' && (d == '1' || d == '2' || d == '3' || d == '4')
    | _ => false

/-- Case-insensitive `h1`–`h4` test (the sibling-walk break condition,
`re.match(r"^h[1-4]$", sib.name, re.I)`). -/
def isHeadingCI (n : Node) : Bool :=
  match n with
  | .text _ => false
  | .elem nm _ =>
    match lowerL nm with
    | [h, d] => h == 'h' && (d == '1' || d == '2' || d == '3' || d == '4')
    | _ => false

mutual

/-- Every heading element in document order, paired with its following
siblings — what `find_all` plus `next_siblings` provide. -/
def headingsWS : List Node → List (Node × List Node)
  | [] => []
  | c :: rest =>
    (if isHeadingCS c then [(c, rest)] else []) ++ headingsWSNode c ++ headingsWS rest

def headingsWSNode : Node → List (Node × List Node)
  | .text _ => []
  | .elem _ cs => headingsWS cs

end

/-- Sibling walk of one heading block (lines 166–172): stop at the first
`h1`–`h4` sibling of any level, collect each other sibling's stripped text. -/
def contentParts : List Node → List (List Char)
  | [] => []
  | sib :: rest =>
    if isHeadingCI sib then []
    else if pstrip (getTextSep ['\n'] sib) = [] then contentParts rest
    else pstrip (getTextSep ['\n'] sib) :: contentParts rest

/-- Python `"\n".join(content_parts).strip()`: the body of one heading block. -/
def blockContent (sibs : List Node) : List Char :=
  pstrip (List.intercalate ['\n'] (contentParts sibs))

/-- Heading-block loop of `parse_html_sections`: one section per heading,
keyed by the normalized heading text, empty blocks skipped. -/
def addHeadingSections (hs : List (Node × List Node))
    (sections : List (List Char × List Char)) : List (List Char × List Char) :=
  hs.foldl (fun sections pr =>
    if blockContent pr.2 = [] then sections
    else assocSet sections (sectionKey (pstrip (getTextSep [] pr.1)))
      (blockContent pr.2)) sections

/-- Pure extraction of `parse_html_sections` after a successful parse:
`<sec>` elements if any, else heading-delimited blocks, else the `<body>`
full-text fallback. -/
def htmlSectionsOf (soup : Node) : List (List Char × List Char) :=
  let secs := findAllNamed (toL (r"sec")) soup
  let s1 :=
    if secs.isEmpty then addHeadingSections (headingsWSNode soup) []
    else addSecSections secs []
  if s1 = [] then
    match (findAllNamed (toL (r"body")) soup).head? with
    | some b => [(toL (r"full_text"), pstrip (getTextSep ['\n'] b))]
    | none => s1
  else s1

/-- Model of `parse_xml_sections` (lines 118–144): try the strict parser, fall back
to the lenient parser when it throws; a failure of the fallback itself
would propagate. -/
def parse_xml_sections (p1 p2 : List Char → Except Unit Node) (xml : List Char) :
    Except Unit (List (List Char × List Char)) :=
  match p1 xml with
  | .ok soup => .ok (xmlSectionsOf soup)
  | .error _ =>
    match p2 xml with
    | .ok soup => .ok (xmlSectionsOf soup)
    | .error e => .error e

/-- Model of `parse_html_sections` (lines 146–181): a single lenient parse with no
handler of its own. -/
def parse_html_sections (p : List Char → Except Unit Node) (html : List Char) :
    Except Unit (List (List Char × List Char)) :=
  match p html with
  | .ok soup => .ok (htmlSectionsOf soup)
  | .error e => .error e

/-- Model of `extract_text_from_pdf_bytes` (lines 183–194): everything inside `try`;
page texts joined by a blank line, empty pages dropped; any failure while
opening or reading yields `None`. -/
def extract_text_from_pdf_bytes (openResult : Except Unit (List (List Char))) :
    Option (List Char) :=
  match openResult with
  | .ok pages => some (List.intercalate ['\n', '\n'] (pages.filter (fun t => !t.isEmpty)))
  | .error _ => none

/-- Claim C7 — confirmed.  With the lenient fallback parser total (the
behaviour the source relies on for `html.parser`), the XML extractor
returns a section mapping for every input even when the strict parse fails,
the HTML extractor returns a section mapping for every input, and the PDF
extractor degrades any open/read failure to `None`: no extractor propagates
a failure past its boundary. -/
theorem claim_C7 (p1 p2 : List Char → Except Unit Node)
    (hp2 : ∀ x, ∃ soup, p2 x = .ok soup) :
    (∀ xml, ∃ m, parse_xml_sections p1 p2 xml = .ok m) ∧
    (∀ html, ∃ m, parse_html_sections p2 html = .ok m) ∧
    (∀ pdfres : Except Unit (List (List Char)),
      (∃ e, pdfres = .error e) → extract_text_from_pdf_bytes pdfres = none) := by
  refine ⟨?_, ?_, ?_⟩
  · intro xml
    cases h1 : p1 xml with
    | ok soup => exact ⟨xmlSectionsOf soup, by simp [parse_xml_sections, h1]⟩
    | error e =>
      obtain ⟨soup, h2⟩ := hp2 xml
      exact ⟨xmlSectionsOf soup, by simp [parse_xml_sections, h1, h2]⟩
  · intro html
    obtain ⟨soup, h2⟩ := hp2 html
    exact ⟨htmlSectionsOf soup, by simp [parse_html_sections, h2]⟩
  · rintro pdfres ⟨e, rfl⟩
    rfl

theorem claim_C7_witness :
    (∃ m, parse_xml_sections (fun _ => Except.error ())
        (fun _ => Except.ok (Node.elem (toL (r"[document]")) []))
        (toL (r"<bad")) = Except.ok m) ∧
    (∃ m, parse_html_sections
        (fun _ => Except.ok (Node.elem (toL (r"[document]")) []))
        (toL (r"<p>")) = Except.ok m) ∧
    extract_text_from_pdf_bytes (Except.error ()) = none := by
  have h := claim_C7 (fun _ => Except.error ())
    (fun _ => Except.ok (Node.elem (toL (r"[document]")) []))
    (fun _ => ⟨_, rfl⟩)
  exact ⟨h.1 (toL (r"<bad")), h.2.1 (toL (r"<p>")),
    h.2.2 (Except.error ()) ⟨(), rfl⟩⟩

theorem contentParts_eq_takeWhile (sibs : List Node) :
    contentParts sibs
      = (sibs.takeWhile (fun n => !(isHeadingCI n))).filterMap
          (fun n => if pstrip (getTextSep ['\n'] n) = [] then none
                    else some (pstrip (getTextSep ['\n'] n))) := by
  induction sibs with
  | nil => rfl
  | cons sib rest ih =>
    by_cases hh : isHeadingCI sib = true
    · simp [contentParts, List.takeWhile_cons, hh]
    · by_cases ht : pstrip (getTextSep ['\n'] sib) = [] <;>
        simp [contentParts, List.takeWhile_cons, hh, ht, ih]

/-- Claim C9 — amended.  In the heading fallback, a heading block's body is
the joined stripped text of the siblings following the heading up to — but
excluding — the first following `h1`–`h4` heading element of ANY level
(case-insensitive): a heading of strictly lower priority terminates the
block just like one of equal or higher priority. -/
theorem claim_C9_amended (sibs : List Node) :
    blockContent sibs
      = pstrip (List.intercalate ['\n']
          ((sibs.takeWhile (fun n => !(isHeadingCI n))).filterMap
            (fun n => if pstrip (getTextSep ['\n'] n) = [] then none
                      else some (pstrip (getTextSep ['\n'] n))))) := by
  rw [blockContent, contentParts_eq_takeWhile]

/-- Heading level as claim C9 needs it: `h1` has the highest priority. -/
def headingLevel (n : Node) : Option Nat :=
  match n with
  | .text _ => none
  | .elem nm _ =>
    match lowerL nm with
    | [h, d] =>
      if h = 'h' ∧ (d = '1' ∨ d = '2' ∨ d = '3' ∨ d = '4')
      then some (d.toNat - Char.toNat '0')
      else none
    | _ => none

/-- Break test as claim C9 words it: only a heading of equal-or-higher
priority (level `≤` the current heading's level) ends the block. -/
def claimStopsAt (lvl : Nat) (n : Node) : Bool :=
  match headingLevel n with
  | some l2 => decide (l2 ≤ lvl)
  | none => false

/-- Block body exactly as claim C9 describes it, for a heading of level
`lvl`: all sibling content up to the next equal-or-higher heading. -/
def claimParts (lvl : Nat) : List Node → List (List Char)
  | [] => []
  | sib :: rest =>
    if claimStopsAt lvl sib then []
    else if pstrip (getTextSep ['\n'] sib) = [] then claimParts lvl rest
    else pstrip (getTextSep ['\n'] sib) :: claimParts lvl rest

/-- Joined-and-stripped form of `claimParts`. -/
def claimBlockContent (lvl : Nat) (sibs : List Node) : List Char :=
  pstrip (List.intercalate ['\n'] (claimParts lvl sibs))

/-- Siblings following an `h2` heading: a paragraph, then an `h3` (strictly
lower priority), then another paragraph. -/
def exSibsC9 : List Node :=
  [Node.elem (toL (r"p")) [Node.text (toL (r"body1"))],
   Node.elem (toL (r"h3")) [Node.text (toL (r"B"))],
   Node.elem (toL (r"p")) [Node.text (toL (r"body2"))]]

/-- Claim C9 — counterexample to the claim as stated: after an `h2` heading
the code's sibling walk stops at the `h3` sibling although `h3` has strictly
lower priority, so `body2` is dropped; the claimed equal-or-higher rule
would keep walking and include `body2`. -/
theorem claim_C9_counterexample :
    blockContent exSibsC9 = toL (r"body1") ∧
    claimBlockContent 2 exSibsC9 ≠ blockContent exSibsC9 ∧
    ¬ (toL (r"body2")) <:+: blockContent exSibsC9 ∧
    (toL (r"body2")) <:+: claimBlockContent 2 exSibsC9 := by
  decide

theorem claim_C9_witness :
    blockContent exSibsC9
      = pstrip (List.intercalate ['\n']
          ((exSibsC9.takeWhile (fun n => !(isHeadingCI n))).filterMap
            (fun n => if pstrip (getTextSep ['\n'] n) = [] then none
                      else some (pstrip (getTextSep ['\n'] n))))) :=
  claim_C9_amended exSibsC9
